import Mathlib

/-!
Shallow embedding of RetroArch's `core_options.c` (the core option manager):
descriptor parsing, the option table, its query/mutation operations and the
persistence flush.  Strings are modelled by Lean `String`s, the raw character
scanning of `strstr`/`string_split` is done on `List Char`.  The external
key/value configuration store (`config_file_t`) is modelled as an association
list, per the collaborator interface of the spec (open / get_string /
set_string / write / close).
-/

namespace CoreOptions

/-- Embedding of `strstr(value, "; ")` together with the split performed by
`parse_variable`: returns `some (before, after)` where `before` is the text
preceding the FIRST occurrence of the two-character separator `"; "` and
`after` is the text following it, or `none` when the separator does not
occur. -/
def findSep : List Char → Option (List Char × List Char)
  | [] => none
  | c :: rest =>
    if c = ';' ∧ rest.head? = some ' ' then some ([], rest.tail)
    else (findSep rest).map (fun p => (c :: p.1, p.2))

/-- Split a character list on the `'|'` delimiter, preserving order and
keeping empty entries.  Always yields at least one (possibly empty) part. -/
def splitBar : List Char → List (List Char)
  | [] => [[]]
  | c :: rest =>
    if c = '|' then [] :: splitBar rest
    else
      match splitBar rest with
      | [] => [[c]]
      | v :: vs => (c :: v) :: vs

/-- Join character lists with the `'|'` delimiter (used only to state
round-trip properties about `splitBar`). -/
def joinBar : List (List Char) → List Char
  | [] => []
  | [v] => v
  | v :: vs => v ++ '|' :: joinBar vs

/-- Modelled from the spec: `string_split(val_start, "|")` from
libretro-common's string list module, which is code of this repository not
present under `src/`.  Per the spec, the remainder of the descriptor is
"split on the `|` delimiter into `values`, preserving order and allowing
empty or duplicate entries", and a split that "yields zero values" is a
parse failure (`none`). -/
def string_split (s : List Char) : Option (List String) :=
  let parts := (splitBar s).map String.mk
  if parts.isEmpty then none else some parts

/-- The external key/value configuration store (`config_file_t`), modelled
as an association list of key/value pairs. -/
abbrev ConfigFile := List (String × String)

/-- Modelled from the spec: `config_get_string(conf, key, &val)` of the
persisted-store collaborator — the stored string under `key`, or absent. -/
def config_get_string (conf : ConfigFile) (key : String) : Option String :=
  match conf with
  | [] => none
  | (k, v) :: rest => if k = key then some v else config_get_string rest key

/-- Modelled from the spec: `config_set_string(conf, key, val)` of the
persisted-store collaborator — replaces the entry under `key`, or appends
a new one. -/
def config_set_string (conf : ConfigFile) (key val : String) : ConfigFile :=
  match conf with
  | [] => [(key, val)]
  | (k, v) :: rest =>
    if k = key then (k, val) :: rest
    else (k, v) :: config_set_string rest key val

/-- Embedding of the seeding scan in `parse_variable`: index of the first
element of `vals` equal (case-sensitively, `strcmp`) to `config_val`. -/
def firstMatch (config_val : String) : List String → Option Nat
  | [] => none
  | v :: rest =>
    if v = config_val then some 0
    else (firstMatch config_val rest).map (· + 1)

/-- `struct core_option`: one parsed option record. -/
structure CoreOption where
  key : String
  desc : String
  vals : List String
  index : Nat
deriving DecidableEq, Repr

/-- `struct core_option_manager`: the option table. -/
structure CoreOptionManager where
  conf : ConfigFile
  conf_path : String
  opts : List CoreOption
  updated : Bool
deriving DecidableEq, Repr

/-- Embedding of `parse_variable`: parse one raw `(key, value)` descriptor
pair against the backing store `conf`.  Splits on the first `"; "`, splits
values on `'|'`, then seeds the index from the store (first exact match,
default 0). -/
def parse_variable (conf : ConfigFile) (key value : String) :
    Option CoreOption :=
  match findSep value.data with
  | none => none
  | some (descChars, valStart) =>
    match string_split valStart with
    | none => none
    | some vals =>
      let index : Nat :=
        match config_get_string conf key with
        | some config_val => (firstMatch config_val vals).getD 0
        | none => 0
      some { key := key, desc := String.mk descChars, vals := vals,
             index := index }

/-- The parsing loop of `core_option_new`: parse every pair in order,
failing the whole construction on the first parse failure. -/
def parseAll (conf : ConfigFile) :
    List (String × String) → Option (List CoreOption)
  | [] => some []
  | (k, v) :: rest =>
    match parse_variable conf k v with
    | none => none
    | some o =>
      match parseAll conf rest with
      | none => none
      | some os => some (o :: os)

/-- Embedding of `core_option_new`: builds the table from the opened store
`conf`, the store path and the (already terminator-delimited) list of raw
variable pairs.  Returns `none` when any descriptor fails to parse (the C
code then frees all partial state and returns NULL). -/
def core_option_new (conf : ConfigFile) (conf_path : String)
    (vars : List (String × String)) : Option CoreOptionManager :=
  match parseAll conf vars with
  | none => none
  | some opts =>
    some { conf := conf, conf_path := conf_path, opts := opts,
           updated := false }

/-- Embedding of `core_option_get_val`: `vals[index]` of option `idx`. -/
def core_option_get_val (opt : CoreOptionManager) (idx : Nat) :
    Option String :=
  match opt.opts.get? idx with
  | none => none
  | some o => o.vals.get? o.index

/-- Embedding of `core_option_get` (lookup by key): clears the `updated`
flag, then scans the table in order for the first option whose key matches
and returns its current value, or `none` when no key matches.  Returns the
new manager state together with the looked-up value. -/
def core_option_get (opt : CoreOptionManager) (key : String) :
    CoreOptionManager × Option String :=
  let opt2 : CoreOptionManager := { opt with updated := false }
  match opt2.opts.find? (fun o => o.key = key) with
  | some o => (opt2, o.vals.get? o.index)
  | none => (opt2, none)

/-- Embedding of `core_option_updated`: the dirty flag. -/
def core_option_updated (opt : CoreOptionManager) : Bool :=
  opt.updated

/-- Update the element at position `i` of a list in place (identity when
`i` is out of range). -/
def modifyAt (l : List CoreOption) (i : Nat) (f : CoreOption → CoreOption) :
    List CoreOption :=
  match l, i with
  | [], _ => []
  | x :: xs, 0 => f x :: xs
  | x :: xs, n + 1 => x :: modifyAt xs n f

/-- Embedding of `core_option_set_val`:
`index = val_idx % vals->size`, sets the dirty flag. -/
def core_option_set_val (opt : CoreOptionManager) (idx val_idx : Nat) :
    CoreOptionManager :=
  { opt with
    opts := modifyAt opt.opts idx
      (fun o => { o with index := val_idx % o.vals.length }),
    updated := true }

/-- Embedding of `core_option_next`:
`index = (index + 1) % vals->size`, sets the dirty flag. -/
def core_option_next (opt : CoreOptionManager) (idx : Nat) :
    CoreOptionManager :=
  { opt with
    opts := modifyAt opt.opts idx
      (fun o => { o with index := (o.index + 1) % o.vals.length }),
    updated := true }

/-- Embedding of `core_option_prev`:
`index = (index + vals->size - 1) % vals->size`, sets the dirty flag. -/
def core_option_prev (opt : CoreOptionManager) (idx : Nat) :
    CoreOptionManager :=
  { opt with
    opts := modifyAt opt.opts idx
      (fun o => { o with index := (o.index + o.vals.length - 1) % o.vals.length }),
    updated := true }

/-- Embedding of `core_option_set_default`: `index = 0`, sets the dirty
flag. -/
def core_option_set_default (opt : CoreOptionManager) (idx : Nat) :
    CoreOptionManager :=
  { opt with
    opts := modifyAt opt.opts idx (fun o => { o with index := 0 }),
    updated := true }

/-- The loop body of `core_option_flush`: write `(key, current value)` for
every option, in table order, into the store. -/
def flushConf (conf : ConfigFile) : List CoreOption → ConfigFile
  | [] => conf
  | o :: rest =>
    flushConf (config_set_string conf o.key (o.vals.getD o.index "")) rest

/-- Embedding of `core_option_flush`: writes every option's current value
into the in-memory store, then serializes it via the external
`config_file_write`, whose outcome is modelled by the collaborator function
`write`.  Returns the new manager state (with the updated in-memory store)
and the result of the final serialization. -/
def core_option_flush (opt : CoreOptionManager)
    (write : ConfigFile → String → Bool) : CoreOptionManager × Bool :=
  let conf2 := flushConf opt.conf opt.opts
  ({ opt with conf := conf2 }, write conf2 opt.conf_path)

/-- One mutation operation of the public API. -/
inductive MutOp where
  | setSel (idx val_idx : Nat)
  | adv (idx : Nat)
  | ret (idx : Nat)
  | reset (idx : Nat)
deriving DecidableEq, Repr

/-- The option index targeted by a mutation. -/
def MutOp.target : MutOp → Nat
  | .setSel i _ => i
  | .adv i => i
  | .ret i => i
  | .reset i => i

/-- Apply one mutation operation to the manager. -/
def applyOp (m : CoreOptionManager) : MutOp → CoreOptionManager
  | .setSel i k => core_option_set_val m i k
  | .adv i => core_option_next m i
  | .ret i => core_option_prev m i
  | .reset i => core_option_set_default m i

/-- Apply a sequence of mutation operations, in order. -/
def applyOps (m : CoreOptionManager) (ops : List MutOp) : CoreOptionManager :=
  ops.foldl applyOp m

/-- Well-formedness of a single option: non-empty value list and in-range
selection index. -/
def optWF (o : CoreOption) : Prop :=
  o.vals ≠ [] ∧ o.index < o.vals.length

/-- Well-formedness of the whole table. -/
def mgrWF (m : CoreOptionManager) : Prop :=
  ∀ o ∈ m.opts, optWF o

/-! ### Lemmas about `findSep` -/

theorem findSep_eq_some (l : List Char) :
    ∀ a b, findSep l = some (a, b) → l = a ++ ';' :: ' ' :: b := by
  induction l with
  | nil => intro a b h; simp [findSep] at h
  | cons c t ih =>
    intro a b h
    simp only [findSep] at h
    split at h
    · rename_i hcd
      obtain ⟨hc, hh⟩ := hcd
      simp only [Option.some.injEq, Prod.mk.injEq] at h
      obtain ⟨ha, hb⟩ := h
      subst ha; subst hc
      cases t with
      | nil => simp at hh
      | cons x t2 =>
        simp only [List.head?_cons, Option.some.injEq] at hh
        simp only [List.tail_cons] at hb
        subst hh; subst hb
        rfl
    · cases hfd : findSep t with
      | none => rw [hfd] at h; simp at h
      | some p =>
        rw [hfd] at h
        simp only [Option.map_some', Option.some.injEq, Prod.mk.injEq] at h
        obtain ⟨ha, hb⟩ := h
        have := ih p.1 p.2 (by rw [hfd])
        subst hb
        rw [← ha]
        simp [this]

theorem findSep_append_isSome (a b : List Char) :
    (findSep (a ++ ';' :: ' ' :: b)).isSome := by
  induction a with
  | nil => simp [findSep]
  | cons c t ih =>
    simp only [List.cons_append, findSep]
    split
    · simp
    · simpa using ih

theorem no_sep_of_findSep_none (l : List Char) (h : findSep l = none) :
    ¬ ∃ a b, l = a ++ ';' :: ' ' :: b := by
  rintro ⟨a, b, rfl⟩
  have := findSep_append_isSome a b
  rw [h] at this
  simp at this

theorem findSep_append_of_none (a : List Char) :
    ∀ b, findSep a = none → findSep (a ++ ';' :: ' ' :: b) = some (a, b) := by
  induction a with
  | nil => intro b _; simp [findSep]
  | cons c t ih =>
    intro b h
    simp only [findSep] at h
    split at h
    · simp at h
    · rename_i hcond
      have ht : findSep t = none := by
        cases hft : findSep t with
        | none => rfl
        | some p => rw [hft] at h; simp at h
      simp only [List.cons_append, findSep, List.append_eq]
      rw [if_neg, ih b ht]
      · simp
      · rintro ⟨hc, hh⟩
        apply hcond
        refine ⟨hc, ?_⟩
        cases t with
        | nil => simp at hh
        | cons x t2 => simpa using hh

/-! ### Lemmas about `splitBar`, `joinBar` and `string_split` -/

theorem splitBar_ne_nil (l : List Char) : splitBar l ≠ [] := by
  cases l with
  | nil => simp [splitBar]
  | cons c rest =>
    simp only [splitBar]
    split
    · simp
    · cases splitBar rest <;> simp

theorem splitBar_append (v : List Char) (hv : '|' ∉ v) :
    ∀ rest r rs, splitBar rest = r :: rs →
      splitBar (v ++ rest) = (v ++ r) :: rs := by
  induction v with
  | nil => intro rest r rs h; simpa using h
  | cons c t ih =>
    intro rest r rs h
    have hc : c ≠ '|' := fun hc => hv (by simp [hc])
    have ht : '|' ∉ t := fun hm => hv (by simp [hm])
    simp only [List.cons_append, splitBar]
    rw [if_neg hc]
    rw [show t.append rest = t ++ rest from rfl, ih ht rest r rs h]

theorem splitBar_joinBar (vs : List (List Char)) (hne : vs ≠ [])
    (hbar : ∀ v ∈ vs, '|' ∉ v) : splitBar (joinBar vs) = vs := by
  induction vs with
  | nil => exact absurd rfl hne
  | cons v t ih =>
    cases t with
    | nil =>
      have hv : '|' ∉ v := hbar v (by simp)
      have : splitBar (v ++ ([] : List Char)) = (v ++ []) :: [] :=
        splitBar_append v hv [] [] [] (by simp [splitBar])
      simpa [joinBar] using this
    | cons w t2 =>
      have hv : '|' ∉ v := hbar v (by simp)
      have hrest : splitBar (joinBar (w :: t2)) = w :: t2 :=
        ih (by simp) (fun x hx => hbar x (List.mem_cons_of_mem v hx))
      have hbarstep : splitBar ('|' :: joinBar (w :: t2)) = [] :: w :: t2 := by
        simp [splitBar, hrest]
      have := splitBar_append v hv ('|' :: joinBar (w :: t2)) [] (w :: t2) hbarstep
      simpa [joinBar] using this

theorem string_split_eq (s : List Char) :
    string_split s = some ((splitBar s).map String.mk) := by
  unfold string_split
  rw [if_neg]
  simp only [List.isEmpty_eq_true, List.map_eq_nil_iff]
  exact splitBar_ne_nil s

/-! ### Lemmas about `firstMatch` -/

theorem firstMatch_get (cv : String) (l : List String) :
    ∀ i, firstMatch cv l = some i → l.get? i = some cv := by
  induction l with
  | nil => intro i h; simp [firstMatch] at h
  | cons v t ih =>
    intro i h
    simp only [firstMatch] at h
    split at h
    · rename_i hv
      simp only [Option.some.injEq] at h
      subst h
      simpa using hv
    · cases hft : firstMatch cv t with
      | none => rw [hft] at h; simp at h
      | some j =>
        rw [hft] at h
        simp only [Option.map_some', Option.some.injEq] at h
        subst h
        simpa using ih j hft

theorem firstMatch_first (cv : String) (l : List String) :
    ∀ i, firstMatch cv l = some i →
      ∀ j, j < i → l.get? j ≠ some cv := by
  induction l with
  | nil => intro i h; simp [firstMatch] at h
  | cons v t ih =>
    intro i h j hj
    simp only [firstMatch] at h
    split at h
    · rename_i hv
      simp only [Option.some.injEq] at h
      omega
    · rename_i hv
      cases hft : firstMatch cv t with
      | none => rw [hft] at h; simp at h
      | some k =>
        rw [hft] at h
        simp only [Option.map_some', Option.some.injEq] at h
        subst h
        cases j with
        | zero =>
          simp only [List.get?_cons_zero, ne_eq, Option.some.injEq]
          exact fun hvc => hv hvc
        | succ j2 =>
          simp only [List.get?_cons_succ]
          exact ih k hft j2 (by omega)

theorem firstMatch_lt (cv : String) (l : List String) :
    ∀ i, firstMatch cv l = some i → i < l.length := by
  intro i h
  have := firstMatch_get cv l i h
  exact List.get?_eq_some.mp this |>.1

theorem firstMatch_none (cv : String) (l : List String) :
    firstMatch cv l = none ↔ cv ∉ l := by
  induction l with
  | nil => simp [firstMatch]
  | cons v t ih =>
    simp only [firstMatch]
    split
    · rename_i hv
      subst hv
      simp
    · rename_i hv
      cases hft : firstMatch cv t with
      | none =>
        simp only [Option.map_none', true_iff, List.mem_cons]
        have := ih.mp hft
        intro hc
        rcases hc with hc | hc
        · exact hv hc.symm
        · exact this hc
      | some j =>
        simp only [Option.map_some']
        constructor
        · intro h; simp at h
        · intro hc
          exfalso
          apply hc
          have := firstMatch_get cv t j hft
          exact List.mem_cons_of_mem v (List.get?_mem this)

/-! ### Lemmas about `modifyAt` -/

theorem modifyAt_length (l : List CoreOption) (i : Nat)
    (f : CoreOption → CoreOption) : (modifyAt l i f).length = l.length := by
  induction l generalizing i with
  | nil => simp [modifyAt]
  | cons x xs ih =>
    cases i with
    | zero => simp [modifyAt]
    | succ n => simp [modifyAt, ih]

theorem modifyAt_get_self (l : List CoreOption) (i : Nat)
    (f : CoreOption → CoreOption) :
    (modifyAt l i f).get? i = (l.get? i).map f := by
  induction l generalizing i with
  | nil => simp [modifyAt]
  | cons x xs ih =>
    cases i with
    | zero => simp [modifyAt]
    | succ n => simpa [modifyAt] using ih n

theorem modifyAt_get_ne (l : List CoreOption) (i j : Nat)
    (f : CoreOption → CoreOption) (h : j ≠ i) :
    (modifyAt l i f).get? j = l.get? j := by
  induction l generalizing i j with
  | nil => simp [modifyAt]
  | cons x xs ih =>
    cases i with
    | zero =>
      cases j with
      | zero => exact absurd rfl h
      | succ m => simp [modifyAt]
    | succ n =>
      cases j with
      | zero => simp [modifyAt]
      | succ m => simpa [modifyAt] using ih n m (by omega)

theorem modifyAt_congr (l : List CoreOption) (i : Nat)
    (f g : CoreOption → CoreOption)
    (h : ∀ x, l.get? i = some x → f x = g x) :
    modifyAt l i f = modifyAt l i g := by
  induction l generalizing i with
  | nil => simp [modifyAt]
  | cons x xs ih =>
    cases i with
    | zero =>
      simp only [modifyAt, List.cons.injEq, and_true]
      exact h x (by simp)
    | succ n =>
      simp only [modifyAt, List.cons.injEq, true_and]
      exact ih n (fun y hy => h y (by simpa using hy))

theorem mem_modifyAt (l : List CoreOption) (i : Nat)
    (f : CoreOption → CoreOption) (o : CoreOption)
    (h : o ∈ modifyAt l i f) : o ∈ l ∨ ∃ x ∈ l, o = f x := by
  induction l generalizing i with
  | nil => simp [modifyAt] at h
  | cons x xs ih =>
    cases i with
    | zero =>
      simp only [modifyAt, List.mem_cons] at h
      rcases h with h | h
      · exact Or.inr ⟨x, by simp, h⟩
      · exact Or.inl (List.mem_cons_of_mem x h)
    | succ n =>
      simp only [modifyAt, List.mem_cons] at h
      rcases h with h | h
      · exact Or.inl (by simp [h])
      · rcases ih n h with h2 | ⟨y, hy, hoy⟩
        · exact Or.inl (List.mem_cons_of_mem x h2)
        · exact Or.inr ⟨y, List.mem_cons_of_mem x hy, hoy⟩

/-! ### Lemmas about the configuration store -/

theorem config_get_set_same (conf : ConfigFile) (key val : String) :
    config_get_string (config_set_string conf key val) key = some val := by
  induction conf with
  | nil => simp [config_set_string, config_get_string]
  | cons p rest ih =>
    obtain ⟨k, v⟩ := p
    simp only [config_set_string]
    split
    · rename_i hk
      simp [config_get_string, hk]
    · rename_i hk
      simp [config_get_string, hk, ih]

theorem config_get_set_ne (conf : ConfigFile) (key val q : String)
    (h : q ≠ key) :
    config_get_string (config_set_string conf key val) q =
      config_get_string conf q := by
  have hne : ¬ key = q := fun hk => h hk.symm
  induction conf with
  | nil =>
    simp only [config_set_string, config_get_string]
    rw [if_neg hne]
  | cons p rest ih =>
    obtain ⟨k, v⟩ := p
    simp only [config_set_string]
    split
    · rename_i hk
      subst hk
      simp only [config_get_string]
      rw [if_neg hne, if_neg hne]
    · simp only [config_get_string]
      split
      · rfl
      · exact ih

theorem flushConf_get_not_mem (opts : List CoreOption) :
    ∀ (conf : ConfigFile) (key : String),
      key ∉ opts.map CoreOption.key →
      config_get_string (flushConf conf opts) key =
        config_get_string conf key := by
  induction opts with
  | nil => intro conf key _; rfl
  | cons o rest ih =>
    intro conf key h
    simp only [List.map_cons, List.mem_cons] at h
    push_neg at h
    obtain ⟨h1, h2⟩ := h
    simp only [flushConf]
    rw [ih _ key h2, config_get_set_ne _ _ _ _ h1]

theorem flushConf_get (opts : List CoreOption) :
    ∀ (conf : ConfigFile) (i : Nat) (o : CoreOption),
      opts.get? i = some o → (opts.map CoreOption.key).Nodup →
      config_get_string (flushConf conf opts) o.key =
        some (o.vals.getD o.index "") := by
  induction opts with
  | nil => intro conf i o h; simp at h
  | cons p rest ih =>
    intro conf i o h hnd
    simp only [List.map_cons, List.nodup_cons] at hnd
    obtain ⟨hp, hrest⟩ := hnd
    cases i with
    | zero =>
      simp only [List.get?_cons_zero, Option.some.injEq] at h
      subst h
      simp only [flushConf]
      rw [flushConf_get_not_mem rest _ _ hp, config_get_set_same]
    | succ n =>
      simp only [List.get?_cons_succ] at h
      simp only [flushConf]
      exact ih _ n o h hrest

/-! ### Lemmas about `parse_variable` and construction -/

theorem parse_variable_some (conf : ConfigFile) (key value : String)
    (o : CoreOption) (h : parse_variable conf key value = some o) :
    ∃ a b, findSep value.data = some (a, b) ∧
      o.key = key ∧ o.desc = String.mk a ∧
      o.vals = (splitBar b).map String.mk ∧
      o.index = (match config_get_string conf key with
        | some cv => (firstMatch cv o.vals).getD 0
        | none => 0) := by
  cases hf : findSep value.data with
  | none => simp [parse_variable, hf] at h
  | some p =>
    obtain ⟨a, b⟩ := p
    simp only [parse_variable, hf, string_split_eq] at h
    simp only [Option.some.injEq] at h
    subst h
    exact ⟨a, b, rfl, rfl, rfl, rfl, rfl⟩

theorem parse_variable_wf (conf : ConfigFile) (key value : String)
    (o : CoreOption) (h : parse_variable conf key value = some o) :
    optWF o := by
  obtain ⟨a, b, _, _, _, hvals, hidx⟩ := parse_variable_some conf key value o h
  have hne : o.vals ≠ [] := by
    rw [hvals]
    simp only [ne_eq, List.map_eq_nil_iff]
    exact splitBar_ne_nil b
  have hpos : 0 < o.vals.length := List.length_pos.mpr hne
  refine ⟨hne, ?_⟩
  rw [hidx]
  cases config_get_string conf key with
  | none => exact hpos
  | some cv =>
    show (firstMatch cv o.vals).getD 0 < o.vals.length
    cases hfm : firstMatch cv o.vals with
    | none => simpa using hpos
    | some i => simpa using firstMatch_lt cv o.vals i hfm

theorem parseAll_wf (conf : ConfigFile) (vars : List (String × String)) :
    ∀ os, parseAll conf vars = some os → ∀ o ∈ os, optWF o := by
  induction vars with
  | nil =>
    intro os h o ho
    simp only [parseAll, Option.some.injEq] at h
    subst h
    simp at ho
  | cons p rest ih =>
    intro os h o ho
    obtain ⟨k, v⟩ := p
    simp only [parseAll] at h
    cases hp : parse_variable conf k v with
    | none => rw [hp] at h; simp at h
    | some o1 =>
      rw [hp] at h
      cases hr : parseAll conf rest with
      | none => rw [hr] at h; simp at h
      | some os1 =>
        rw [hr] at h
        simp only [Option.some.injEq] at h
        subst h
        rcases List.mem_cons.mp ho with ho | ho
        · subst ho
          exact parse_variable_wf conf k v o hp
        · exact ih os1 hr o ho

theorem core_option_new_wf (conf : ConfigFile) (path : String)
    (vars : List (String × String)) (m : CoreOptionManager)
    (h : core_option_new conf path vars = some m) : mgrWF m := by
  unfold core_option_new at h
  cases hp : parseAll conf vars with
  | none => rw [hp] at h; simp at h
  | some os =>
    rw [hp] at h
    simp only [Option.some.injEq] at h
    subst h
    exact parseAll_wf conf vars os hp

theorem parseAll_none_of_mem (conf : ConfigFile)
    (vars : List (String × String)) (k v : String)
    (hmem : (k, v) ∈ vars) (hfail : parse_variable conf k v = none) :
    parseAll conf vars = none := by
  induction vars with
  | nil => simp at hmem
  | cons p rest ih =>
    obtain ⟨k1, v1⟩ := p
    rcases List.mem_cons.mp hmem with hh | hh
    · obtain ⟨hk, hv⟩ := Prod.mk.injEq .. ▸ hh
      simp only [Prod.mk.injEq] at hh
      obtain ⟨hk, hv⟩ := hh
      subst hk; subst hv
      simp only [parseAll, hfail]
    · simp only [parseAll]
      cases hp : parse_variable conf k1 v1 with
      | none => rfl
      | some o1 => rw [ih hh]

/-! ### Preservation of well-formedness by the mutation operations -/

theorem optWF_mod (o : CoreOption) (h : optWF o) (k : Nat) :
    optWF { o with index := k % o.vals.length } := by
  obtain ⟨h1, _⟩ := h
  have hpos : 0 < o.vals.length := List.length_pos.mpr h1
  exact ⟨h1, Nat.mod_lt _ hpos⟩

theorem applyOp_wf (m : CoreOptionManager) (op : MutOp) (h : mgrWF m) :
    mgrWF (applyOp m op) := by
  have key : ∀ (g : CoreOption → Nat) (i : Nat),
      mgrWF { m with
        opts := modifyAt m.opts i
          (fun o => { o with index := g o % o.vals.length }),
        updated := true } := by
    intro g i o ho
    rcases mem_modifyAt m.opts i _ o ho with ho2 | ⟨x, hx, rfl⟩
    · exact h o ho2
    · exact optWF_mod x (h x hx) (g x)
  cases op with
  | setSel i k => exact key (fun _ => k) i
  | adv i => exact key (fun o => o.index + 1) i
  | ret i => exact key (fun o => o.index + o.vals.length - 1) i
  | reset i =>
    intro o ho
    simp only [applyOp, core_option_set_default] at ho
    rcases mem_modifyAt m.opts i _ o ho with ho2 | ⟨x, hx, rfl⟩
    · exact h o ho2
    · have hx2 := h x hx
      exact ⟨hx2.1, List.length_pos.mpr hx2.1⟩

theorem applyOps_wf (m : CoreOptionManager) (ops : List MutOp)
    (h : mgrWF m) : mgrWF (applyOps m ops) := by
  induction ops generalizing m with
  | nil => exact h
  | cons op rest ih => exact ih (applyOp m op) (applyOp_wf m op h)

/-! ### The claims -/

/-- C1: for every valid descriptor of the form `"D; v0|v1|...|vn"` with
`n ≥ 0` (the description contains no `"; "` substring and no value contains
the `'|'` delimiter), parsing the `(key, descriptor)` pair produces an
option whose description equals `D` verbatim and whose values are
`[v0, ..., vn]` in order, empty and duplicate entries allowed. -/
theorem C1_parse_valid_descriptor (conf : ConfigFile) (key : String)
    (ds : List Char) (vs : List (List Char))
    (hsep : ¬ ∃ a b, ds = a ++ ';' :: ' ' :: b)
    (hne : vs ≠ []) (hbar : ∀ v ∈ vs, '|' ∉ v) :
    ∃ o, parse_variable conf key (String.mk (ds ++ ';' :: ' ' :: joinBar vs))
        = some o ∧
      o.desc = String.mk ds ∧ o.vals = vs.map String.mk := by
  have hfs : findSep ds = none := by
    cases hf : findSep ds with
    | none => rfl
    | some p =>
      exact absurd ⟨p.1, p.2, findSep_eq_some ds p.1 p.2 (by rw [hf])⟩ hsep
  have hdata : (String.mk (ds ++ ';' :: ' ' :: joinBar vs)).data
      = ds ++ ';' :: ' ' :: joinBar vs := rfl
  have hsplit := findSep_append_of_none ds (joinBar vs) hfs
  simp only [parse_variable, hdata, hsplit, string_split_eq,
    splitBar_joinBar vs hne hbar]
  exact ⟨_, rfl, rfl, rfl⟩

/-- Witness for C1: descriptor `"D; |a|a"`, with an empty and a duplicate
value entry. -/
theorem C1_witness :
    ∃ o, parse_variable [] "k"
        (String.mk ("D".data ++ ';' :: ' ' :: joinBar ["".data, "a".data, "a".data]))
        = some o ∧
      o.desc = String.mk "D".data ∧
      o.vals = ["".data, "a".data, "a".data].map String.mk :=
  C1_parse_valid_descriptor [] "k" "D".data ["".data, "a".data, "a".data]
    (no_sep_of_findSep_none _ (by decide)) (by decide) (by decide)

/-- C2: a descriptor with no `"; "` substring fails to parse (no option is
produced), and when any pair of a construction attempt has such a
descriptor, the whole table construction returns `none` (NULL in the C
code), so no previously parsed option of that attempt is exposed. -/
theorem C2_missing_separator_fails (conf conf2 : ConfigFile)
    (path k v : String) (vars : List (String × String))
    (hnosep : ¬ ∃ a b, v.data = a ++ ';' :: ' ' :: b)
    (hmem : (k, v) ∈ vars) :
    parse_variable conf k v = none ∧
      core_option_new conf2 path vars = none := by
  have hfs : findSep v.data = none := by
    cases hf : findSep v.data with
    | none => rfl
    | some p =>
      exact absurd ⟨p.1, p.2, findSep_eq_some v.data p.1 p.2 (by rw [hf])⟩
        hnosep
  have hp : ∀ c : ConfigFile, parse_variable c k v = none := by
    intro c
    simp [parse_variable, hfs]
  refine ⟨hp conf, ?_⟩
  unfold core_option_new
  rw [parseAll_none_of_mem conf2 vars k v hmem (hp conf2)]

/-- Witness for C2: descriptor `"ab"` in second position; the option
parsed from the first pair is discarded with the whole table. -/
theorem C2_witness :
    parse_variable [] "k" "ab" = none ∧
      core_option_new [] "p" [("k0", "D; a"), ("k", "ab")] = none :=
  C2_missing_separator_fails [] [] "p" "k" "ab" [("k0", "D; a"), ("k", "ab")]
    (no_sep_of_findSep_none _ (by decide)) (by decide)

/-- C3: for a successfully parsed option, a stored string equal to some
element of `values` seeds `selected_index` with the index of the first
(case-sensitive, exact) match; an absent stored value, or one matching no
element, leaves `selected_index` at 0 (and parsing still succeeded, so no
error was raised). -/
theorem C3_seed_from_store (conf : ConfigFile) (key d : String)
    (o : CoreOption) (h : parse_variable conf key d = some o) :
    (config_get_string conf key = none → o.index = 0) ∧
    ∀ cv, config_get_string conf key = some cv →
      (cv ∉ o.vals → o.index = 0) ∧
      (cv ∈ o.vals → o.vals.get? o.index = some cv ∧
        ∀ j < o.index, o.vals.get? j ≠ some cv) := by
  obtain ⟨a, b, _, _, _, _, hidx⟩ := parse_variable_some conf key d o h
  constructor
  · intro hn
    simp [hidx, hn]
  · intro cv hcv
    constructor
    · intro hnm
      have hfm : firstMatch cv o.vals = none :=
        (firstMatch_none cv o.vals).mpr hnm
      simp [hidx, hcv, hfm]
    · intro hm
      cases hfm : firstMatch cv o.vals with
      | none => exact absurd hm ((firstMatch_none cv o.vals).mp hfm)
      | some i =>
        have hoi : o.index = i := by simp [hidx, hcv, hfm]
        rw [hoi]
        exact ⟨firstMatch_get cv o.vals i hfm,
          fun j hj => firstMatch_first cv o.vals i hfm j hj⟩

/-- Witness for C3: stored value `"b"` seeds index 1 of `["a", "b"]`. -/
theorem C3_witness :
    (config_get_string [("k", "b")] "k" = none →
      (CoreOption.mk "k" "D" ["a", "b"] 1).index = 0) ∧
    ∀ cv, config_get_string [("k", "b")] "k" = some cv →
      (cv ∉ (CoreOption.mk "k" "D" ["a", "b"] 1).vals →
        (CoreOption.mk "k" "D" ["a", "b"] 1).index = 0) ∧
      (cv ∈ (CoreOption.mk "k" "D" ["a", "b"] 1).vals →
        (CoreOption.mk "k" "D" ["a", "b"] 1).vals.get?
            (CoreOption.mk "k" "D" ["a", "b"] 1).index = some cv ∧
        ∀ j < (CoreOption.mk "k" "D" ["a", "b"] 1).index,
          (CoreOption.mk "k" "D" ["a", "b"] 1).vals.get? j ≠ some cv) :=
  C3_seed_from_store [("k", "b")] "k" "D; a|b"
    (CoreOption.mk "k" "D" ["a", "b"] 1) (by decide)

/-- C4: every option of a successfully constructed table satisfies, after
any sequence of the mutation operations (set selection, advance, retreat,
reset to default), the invariant that its value list is non-empty and its
selected index lies in `[0, len(values))`. -/
theorem C4_invariant_preserved (conf : ConfigFile) (path : String)
    (vars : List (String × String)) (m : CoreOptionManager)
    (hnew : core_option_new conf path vars = some m) (ops : List MutOp) :
    ∀ o ∈ (applyOps m ops).opts, o.vals ≠ [] ∧ o.index < o.vals.length :=
  applyOps_wf m ops (core_option_new_wf conf path vars m hnew)

/-- Witness for C4: one option, mutated by advance, retreat, a wrapping
set-selection and a reset, evaluated at the resulting table's (only)
option. -/
theorem C4_witness :
    (CoreOption.mk "k" "D" ["a", "b"] 0).vals ≠ [] ∧
    (CoreOption.mk "k" "D" ["a", "b"] 0).index <
      (CoreOption.mk "k" "D" ["a", "b"] 0).vals.length :=
  C4_invariant_preserved [] "p" [("k", "D; a|b")]
    (CoreOptionManager.mk [] "p" [CoreOption.mk "k" "D" ["a", "b"] 0] false)
    (by decide)
    [MutOp.adv 0, MutOp.ret 0, MutOp.setSel 0 5, MutOp.reset 0]
    (CoreOption.mk "k" "D" ["a", "b"] 0) (by decide)

/-- C5: every mutation operation leaves the dirty flag true; a lookup by
key (found or not) leaves it false; and the dirty-flag query returns the
flag itself, changing no state (it is a pure function of the manager). -/
theorem C5_dirty_flag (m : CoreOptionManager) (idx k : Nat) (key : String) :
    (core_option_set_val m idx k).updated = true ∧
    (core_option_next m idx).updated = true ∧
    (core_option_prev m idx).updated = true ∧
    (core_option_set_default m idx).updated = true ∧
    (core_option_get m key).1.updated = false ∧
    core_option_updated m = m.updated := by
  refine ⟨rfl, rfl, rfl, rfl, ?_, rfl⟩
  simp only [core_option_get]
  split <;> rfl

/-- C6: setting the selection with value index `k` produces exactly the
same table state as setting it with `k + len(values)`, and both set the
selected index to `k % len(values)` (out-of-range indices wrap). -/
theorem C6_set_val_mod_law (m : CoreOptionManager) (idx k : Nat)
    (o : CoreOption) (h : m.opts.get? idx = some o) :
    core_option_set_val m idx k =
      core_option_set_val m idx (k + o.vals.length) ∧
    (core_option_set_val m idx k).opts.get? idx =
      some { o with index := k % o.vals.length } := by
  constructor
  · have hmod : modifyAt m.opts idx
        (fun o2 => { o2 with index := k % o2.vals.length }) =
        modifyAt m.opts idx
          (fun o2 => { o2 with
            index := (k + o.vals.length) % o2.vals.length }) := by
      apply modifyAt_congr
      intro x hx
      have hxo : o = x := by
        have := h.symm.trans hx
        simpa using this
      subst hxo
      rw [Nat.add_mod_right]
    simp only [core_option_set_val]
    rw [hmod]
  · simp only [core_option_set_val]
    rw [modifyAt_get_self, h]
    rfl

/-- Witness for C6: `set_selection(0, 5)` on a two-value option agrees
with `set_selection(0, 7)` and lands on index `5 % 2 = 1`. -/
theorem C6_witness :
    core_option_set_val
        (CoreOptionManager.mk [] "p" [CoreOption.mk "k" "D" ["a", "b"] 0]
          false) 0 5 =
      core_option_set_val
        (CoreOptionManager.mk [] "p" [CoreOption.mk "k" "D" ["a", "b"] 0]
          false) 0 (5 + (CoreOption.mk "k" "D" ["a", "b"] 0).vals.length) ∧
    (core_option_set_val
        (CoreOptionManager.mk [] "p" [CoreOption.mk "k" "D" ["a", "b"] 0]
          false) 0 5).opts.get? 0 =
      some { CoreOption.mk "k" "D" ["a", "b"] 0 with
             index := 5 % (CoreOption.mk "k" "D" ["a", "b"] 0).vals.length } :=
  C6_set_val_mod_law
    (CoreOptionManager.mk [] "p" [CoreOption.mk "k" "D" ["a", "b"] 0] false)
    0 5 (CoreOption.mk "k" "D" ["a", "b"] 0) (by decide)

/-- Arithmetic core of the advance/retreat round trip. -/
theorem next_prev_index (i n : Nat) (h : i < n) :
    ((i + 1) % n + n - 1) % n = i := by
  rcases Nat.lt_or_ge (i + 1) n with h1 | h1
  · rw [Nat.mod_eq_of_lt h1]
    have e : i + 1 + n - 1 = i + n := by omega
    rw [e, Nat.add_mod_right, Nat.mod_eq_of_lt h]
  · have e : i + 1 = n := by omega
    rw [e, Nat.mod_self]
    have e2 : 0 + n - 1 = n - 1 := by omega
    rw [e2, Nat.mod_eq_of_lt (by omega)]
    omega

/-- C7: advancing and then retreating the same option, with no other
mutation in between, restores the original selected index. -/
theorem C7_advance_retreat_roundtrip (m : CoreOptionManager) (idx : Nat)
    (o : CoreOption) (h : m.opts.get? idx = some o)
    (hwf : o.index < o.vals.length) :
    ((core_option_prev (core_option_next m idx) idx).opts.get? idx).map
        CoreOption.index = some o.index := by
  simp only [core_option_next, core_option_prev]
  rw [modifyAt_get_self, modifyAt_get_self, h]
  simp only [Option.map_some']
  congr 1
  show ((o.index + 1) % o.vals.length + o.vals.length - 1) % o.vals.length
      = o.index
  exact next_prev_index o.index o.vals.length hwf

/-- Witness for C7: advance then retreat on index 0 of a two-value option
returns to selected index 0. -/
theorem C7_witness :
    ((core_option_prev
        (core_option_next
          (CoreOptionManager.mk [] "p" [CoreOption.mk "k" "D" ["a", "b"] 0]
            false) 0) 0).opts.get? 0).map CoreOption.index =
      some (CoreOption.mk "k" "D" ["a", "b"] 0).index :=
  C7_advance_retreat_roundtrip
    (CoreOptionManager.mk [] "p" [CoreOption.mk "k" "D" ["a", "b"] 0] false)
    0 (CoreOption.mk "k" "D" ["a", "b"] 0) (by decide) (by decide)

/-- C8: retreating sets the selected index to
`(selected_index - 1 + len(values)) mod len(values)` (computed over the
integers), in particular retreating from index 0 yields
`len(values) - 1`, and the result is never negative. -/
theorem C8_retreat_wraps (m : CoreOptionManager) (idx : Nat)
    (o : CoreOption) (h : m.opts.get? idx = some o)
    (hwf : o.index < o.vals.length) :
    ∃ o2, (core_option_prev m idx).opts.get? idx = some o2 ∧
      (o2.index : Int) =
        ((o.index : Int) - 1 + (o.vals.length : Int)) %
          (o.vals.length : Int) ∧
      0 ≤ (o2.index : Int) ∧
      (o.index = 0 → o2.index = o.vals.length - 1) := by
  have hn : 0 < o.vals.length := Nat.lt_of_le_of_lt (Nat.zero_le _) hwf
  refine ⟨{ o with
      index := (o.index + o.vals.length - 1) % o.vals.length },
    ?_, ?_, ?_, ?_⟩
  · simp only [core_option_prev]
    rw [modifyAt_get_self, h]
    rfl
  · show (((o.index + o.vals.length - 1) % o.vals.length : Nat) : Int) = _
    rw [Int.natCast_mod]
    congr 1
    omega
  · exact Int.natCast_nonneg _
  · intro h0
    show (o.index + o.vals.length - 1) % o.vals.length = o.vals.length - 1
    rw [h0]
    have e2 : 0 + o.vals.length - 1 = o.vals.length - 1 := by omega
    rw [e2, Nat.mod_eq_of_lt (by omega)]

/-- Witness for C8: retreat at selected index 0 of a two-value option
wraps to index 1. -/
theorem C8_witness :
    ∃ o2, (core_option_prev
        (CoreOptionManager.mk [] "p" [CoreOption.mk "k" "D" ["a", "b"] 0]
          false) 0).opts.get? 0 = some o2 ∧
      (o2.index : Int) =
        (((CoreOption.mk "k" "D" ["a", "b"] 0).index : Int) - 1 +
            ((CoreOption.mk "k" "D" ["a", "b"] 0).vals.length : Int)) %
          ((CoreOption.mk "k" "D" ["a", "b"] 0).vals.length : Int) ∧
      0 ≤ (o2.index : Int) ∧
      ((CoreOption.mk "k" "D" ["a", "b"] 0).index = 0 →
        o2.index = (CoreOption.mk "k" "D" ["a", "b"] 0).vals.length - 1) :=
  C8_retreat_wraps
    (CoreOptionManager.mk [] "p" [CoreOption.mk "k" "D" ["a", "b"] 0] false)
    0 (CoreOption.mk "k" "D" ["a", "b"] 0) (by decide) (by decide)

/-- C9: flushing writes `(key, current value)` into the backing store for
every option in table order (so, with the table's keys pairwise distinct,
afterwards the store holds each option's current value under its key),
then returns exactly the outcome of the final external serialization of
that store; the in-memory store update is the same even when the final
write fails (flush is not atomic in execution). -/
theorem C9_flush_semantics (m : CoreOptionManager)
    (write : ConfigFile → String → Bool)
    (hnd : (m.opts.map CoreOption.key).Nodup) :
    (∀ i o, m.opts.get? i = some o →
      config_get_string (core_option_flush m write).1.conf o.key =
        some (o.vals.getD o.index "")) ∧
    (core_option_flush m write).2 =
      write (core_option_flush m write).1.conf m.conf_path ∧
    (core_option_flush m write).1.conf =
      (core_option_flush m (fun _ _ => false)).1.conf ∧
    (core_option_flush m (fun _ _ => false)).2 = false := by
  refine ⟨?_, rfl, rfl, rfl⟩
  intro i o hio
  exact flushConf_get m.opts m.conf i o hio hnd

/-- Witness for C9: two options flushed into a store whose previous value
for `"k1"` is stale; the external write is the constantly-failing one, yet
the in-memory store holds both current values. -/
theorem C9_witness :
    (∀ i o, (CoreOptionManager.mk [("k1", "z")] "p"
        [CoreOption.mk "k1" "D1" ["a", "b"] 1,
         CoreOption.mk "k2" "D2" ["c"] 0] false).opts.get? i = some o →
      config_get_string (core_option_flush
          (CoreOptionManager.mk [("k1", "z")] "p"
            [CoreOption.mk "k1" "D1" ["a", "b"] 1,
             CoreOption.mk "k2" "D2" ["c"] 0] false)
          (fun _ _ => false)).1.conf o.key =
        some (o.vals.getD o.index "")) ∧
    (core_option_flush
        (CoreOptionManager.mk [("k1", "z")] "p"
          [CoreOption.mk "k1" "D1" ["a", "b"] 1,
           CoreOption.mk "k2" "D2" ["c"] 0] false)
        (fun _ _ => false)).2 =
      (fun (_ : ConfigFile) (_ : String) => false)
        (core_option_flush
          (CoreOptionManager.mk [("k1", "z")] "p"
            [CoreOption.mk "k1" "D1" ["a", "b"] 1,
             CoreOption.mk "k2" "D2" ["c"] 0] false)
          (fun _ _ => false)).1.conf
        (CoreOptionManager.mk [("k1", "z")] "p"
          [CoreOption.mk "k1" "D1" ["a", "b"] 1,
           CoreOption.mk "k2" "D2" ["c"] 0] false).conf_path ∧
    (core_option_flush
        (CoreOptionManager.mk [("k1", "z")] "p"
          [CoreOption.mk "k1" "D1" ["a", "b"] 1,
           CoreOption.mk "k2" "D2" ["c"] 0] false)
        (fun _ _ => false)).1.conf =
      (core_option_flush
        (CoreOptionManager.mk [("k1", "z")] "p"
          [CoreOption.mk "k1" "D1" ["a", "b"] 1,
           CoreOption.mk "k2" "D2" ["c"] 0] false)
        (fun _ _ => false)).1.conf ∧
    (core_option_flush
        (CoreOptionManager.mk [("k1", "z")] "p"
          [CoreOption.mk "k1" "D1" ["a", "b"] 1,
           CoreOption.mk "k2" "D2" ["c"] 0] false)
        (fun _ _ => false)).2 = false :=
  C9_flush_semantics
    (CoreOptionManager.mk [("k1", "z")] "p"
      [CoreOption.mk "k1" "D1" ["a", "b"] 1,
       CoreOption.mk "k2" "D2" ["c"] 0] false)
    (fun _ _ => false) (by decide)

/-- Frame facts shared by all four mutation operations: an index-only
update at position `i` preserves the list length, every other position,
and the key, description and values of position `i`. -/
theorem frame_modifyAt (opts : List CoreOption) (i : Nat)
    (g : CoreOption → Nat) :
    (modifyAt opts i (fun o => { o with index := g o })).length =
      opts.length ∧
    (∀ j, j ≠ i →
      (modifyAt opts i (fun o => { o with index := g o })).get? j =
        opts.get? j) ∧
    ∀ o o2, opts.get? i = some o →
      (modifyAt opts i (fun o => { o with index := g o })).get? i =
        some o2 →
      o2.key = o.key ∧ o2.desc = o.desc ∧ o2.vals = o.vals := by
  refine ⟨modifyAt_length opts i _,
    fun j hj => modifyAt_get_ne opts i j _ hj, ?_⟩
  intro o o2 ho ho2
  rw [modifyAt_get_self, ho] at ho2
  simp only [Option.map_some', Option.some.injEq] at ho2
  subst ho2
  exact ⟨rfl, rfl, rfl⟩

/-- C10: each mutation operation changes at most the targeted option's
selected index and the table's dirty flag: the store, the store path, the
table length, every other option, and the targeted option's key,
description and values are unchanged. -/
theorem C10_mutation_frame (m : CoreOptionManager) (op : MutOp) :
    (applyOp m op).conf = m.conf ∧
    (applyOp m op).conf_path = m.conf_path ∧
    (applyOp m op).opts.length = m.opts.length ∧
    (∀ j, j ≠ op.target → (applyOp m op).opts.get? j = m.opts.get? j) ∧
    ∀ o o2, m.opts.get? op.target = some o →
      (applyOp m op).opts.get? op.target = some o2 →
      o2.key = o.key ∧ o2.desc = o.desc ∧ o2.vals = o.vals := by
  cases op with
  | setSel i k =>
    obtain ⟨h1, h2, h3⟩ :=
      frame_modifyAt m.opts i (fun o => k % o.vals.length)
    exact ⟨rfl, rfl, h1, h2, h3⟩
  | adv i =>
    obtain ⟨h1, h2, h3⟩ :=
      frame_modifyAt m.opts i (fun o => (o.index + 1) % o.vals.length)
    exact ⟨rfl, rfl, h1, h2, h3⟩
  | ret i =>
    obtain ⟨h1, h2, h3⟩ :=
      frame_modifyAt m.opts i
        (fun o => (o.index + o.vals.length - 1) % o.vals.length)
    exact ⟨rfl, rfl, h1, h2, h3⟩
  | reset i =>
    obtain ⟨h1, h2, h3⟩ := frame_modifyAt m.opts i (fun _ => 0)
    exact ⟨rfl, rfl, h1, h2, h3⟩

end CoreOptions
